import Mathlib

/-!
Verification of the docs2vector chunking-and-indexing pipeline
(`src/lib/Docs2Vector.js`, `src/script.js`) against its natural-language
specification.

Text is modelled as `List Char` (JS strings are sequences of code units;
none of the verified properties depend on surrogate-pair subtleties).
External library code that the repository only configures (langchain's
`RecursiveCharacterTextSplitter`, node's `crypto` md5) is modelled from the
specification's own description, marked `Modelled from the spec:` below.
-/

namespace Docs2Vector

/-! ## Namespace derivation (`Docs2Vector.js` line 132)

`this.namespace = repoUrl.split('/').pop().replace('.git', '')`

JS `String.prototype.split` with a one-character separator, JS
`Array.prototype.pop` (the split result is always non-empty, so `pop`
returns its last element), and JS `String.prototype.replace` with a plain
string pattern, which replaces only the FIRST occurrence of the pattern. -/

/-- JS `s.split(sep)` for a single-character separator `sep`:
accumulates the current field in `acc` (in order) and emits it at each
separator and at the end.  `"".split(sep) = [""]`, matching JS. -/
def jsSplitAux (sep : Char) : List Char → List Char → List (List Char)
  | [], acc => [acc.reverse]
  | c :: rest, acc =>
    if c = sep then acc.reverse :: jsSplitAux sep rest []
    else jsSplitAux sep rest (c :: acc)

/-- JS `s.split(sep)` (single-character separator). -/
def jsSplit (sep : Char) (s : List Char) : List (List Char) :=
  jsSplitAux sep s []

/-- JS `s.replace(pat, '')` for a plain-string pattern: removes the first
occurrence of `pat`, scanning left to right; leaves `s` unchanged when
`pat` does not occur.  (JS `replace` with a string pattern replaces only
the first match.) -/
def replaceFirst (pat : List Char) : List Char → List Char
  | [] => []
  | c :: rest =>
    if pat ≠ [] ∧ pat.isPrefixOf (c :: rest) then
      -- pattern found here: drop it (replacement is empty) and stop
      List.drop (pat.length - 1) rest
    else c :: replaceFirst pat rest

/-- The version-control suffix removed by line 132. -/
def gitPat : List Char := ['.', 'g', 'i', 't']

/-- `repoUrl.split('/').pop()` — the final `/`-separated segment. -/
def lastSegment (url : List Char) : List Char :=
  (jsSplit '/' url).getLastD []

/-- Line 132: `repoUrl.split('/').pop().replace('.git', '')`. -/
def deriveNamespace (url : List Char) : List Char :=
  replaceFirst gitPat (lastSegment url)

/-- The namespace the SPEC's words describe (for comparison with
`deriveNamespace`): the final path segment with a trailing `.git`
suffix stripped from its end, and `.git` occurring elsewhere left
intact. -/
def specNamespace (url : List Char) : List Char :=
  let seg := lastSegment url
  if gitPat.isSuffixOf seg then seg.dropLast.dropLast.dropLast.dropLast else seg

/-- `pat` occurs as a contiguous run somewhere in the list. -/
def hasOccur (pat : List Char) : List Char → Bool
  | [] => pat.isEmpty
  | c :: rest => pat.isPrefixOf (c :: rest) || hasOccur pat rest

/-! ## The pipeline orchestrator (`Docs2Vector.js` lines 129-166, `run`)

`run` is a `try`-block that derives the namespace, clones the repository
(the clone helper, lines 63-73, first force-removes any stale copy of the
temporary directory), lists the markdown files, processes each file,
upserts the accumulated chunks in batches, and finally removes the cloned
working copy; the `catch` logs the error and rethrows it.  There is no
`finally` clause.

The model records the trace of externally visible effects together with
whether the run succeeded.  Each fallible stage's outcome is an input
(`OrchEnv`); the per-file and per-batch loops are folded into one stage
outcome each, since the first failing iteration aborts the loop with the
same observable effect on cleanup. -/

/-- Externally visible effects of one `run`. -/
inductive OrchEvent where
  /-- namespace derivation (line 132). -/
  | deriveNs
  /-- `fs.rm(tempDir, ...)` inside `#cloneRepository` (line 67): removal of
  any stale working copy left by a previous run. -/
  | preClean
  /-- `git.clone(repoUrl, tempDir)` (line 71). -/
  | cloneCall
  /-- `#findMarkdownFiles(repoDir)` (line 138). -/
  | listCall
  /-- the per-file `#processFile` loop (lines 142-147). -/
  | processCall
  /-- the batched `index.upsert` loop (lines 152-157). -/
  | upsertCall
  /-- `fs.rm(repoDir, ...)` (line 160): cleanup of the working copy. -/
  | removeWorkCopy
deriving DecidableEq, Repr

/-- Which stages of a given run throw. -/
structure OrchEnv where
  cloneFails : Bool
  listFails : Bool
  processFails : Bool
  upsertFails : Bool
deriving DecidableEq, Repr

/-- The control flow of `run` (lines 129-166): the produced effect trace
and the success flag (`false` means the `catch` block rethrew the error to
the caller).  A stage that throws skips everything after it inside the
`try` block; there is no `finally`. -/
def runModel (env : OrchEnv) : List OrchEvent × Bool :=
  let t := [OrchEvent.deriveNs, OrchEvent.preClean, OrchEvent.cloneCall]
  if env.cloneFails then (t, false)
  else
    let t := t ++ [OrchEvent.listCall]
    if env.listFails then (t, false)
    else
      let t := t ++ [OrchEvent.processCall]
      if env.processFails then (t, false)
      else
        let t := t ++ [OrchEvent.upsertCall]
        if env.upsertFails then (t, false)
        else (t ++ [OrchEvent.removeWorkCopy], true)

/-! ## The batch upsert loop (`Docs2Vector.js` lines 152-157)

```
for (let i = 0; i < allChunks.length; i += batchSize) {
    const batch = allChunks.slice(i, i + batchSize);
    await this.index.upsert(batch, { namespace: this.namespace });
    ...
}
```

`slice(i, i + batchSize)` is `take batchSize (drop i chunks)`, so the loop
walks the list in steps of `batchSize`.  The model recurses on the
remaining list; the fuel argument (instantiated with the list's length,
which bounds the number of iterations whenever `batchSize ≥ 1`) only makes
the recursion structural. -/

/-- The successive `slice(i, i + batchSize)` values of the loop. -/
def batchesAux (bs : Nat) : Nat → List α → List (List α)
  | 0, _ => []
  | _, [] => []
  | fuel + 1, x :: xs => (x :: xs).take bs :: batchesAux bs fuel ((x :: xs).drop bs)

/-- The list of batches the loop on lines 152-157 sends, in order. -/
def batches (bs : Nat) (l : List α) : List (List α) :=
  batchesAux bs l.length l

/-- The loop of lines 152-157 run against a store whose call for the
`k`-th batch (0-based) throws exactly when `fails k`: returns the batches
actually handed to `index.upsert`, in order, and `true` iff the loop ran
to completion.  A throwing call aborts the loop at once (the `await` is
inside the `try` of `run`); the loop performs no other store action, in
particular nothing compensating for already-sent batches. -/
def sendBatches (fails : Nat → Bool) : Nat → List (List α) → List (List α) × Bool
  | _, [] => ([], true)
  | k, b :: rest =>
    if fails k then ([b], false)
    else
      let r := sendBatches fails (k + 1) rest
      (b :: r.1, r.2)

/-- Lines 152-157 end to end: batch the chunk list, then send the batches
sequentially until the first store failure. -/
def upsertAll (fails : Nat → Bool) (bs : Nat) (l : List α) : List (List α) × Bool :=
  sendBatches fails 0 (batches bs l)

/-! ### Lemmas about the batching loop -/

theorem batchesAux_nil (bs fuel : Nat) : batchesAux (α := α) bs fuel [] = [] := by
  cases fuel <;> rfl

theorem batchesAux_flatten (bs : Nat) (hbs : 1 ≤ bs) :
    ∀ (fuel : Nat) (l : List α), l.length ≤ fuel → (batchesAux bs fuel l).flatten = l := by
  intro fuel
  induction fuel with
  | zero =>
    intro l hl
    rw [List.length_eq_zero.mp (Nat.le_zero.mp hl)]
    rfl
  | succ fuel ih =>
    intro l hl
    match l with
    | [] => rfl
    | x :: xs =>
      rw [batchesAux, List.flatten_cons, ih]
      · exact List.take_append_drop bs (x :: xs)
      · rw [List.length_drop]
        omega

theorem batchesAux_length (bs : Nat) (hbs : 1 ≤ bs) :
    ∀ (fuel : Nat) (l : List α), l.length ≤ fuel → l ≠ [] →
      (batchesAux bs fuel l).length = (l.length - 1) / bs + 1 := by
  intro fuel
  induction fuel with
  | zero =>
    intro l hl hne
    exact absurd (List.length_eq_zero.mp (Nat.le_zero.mp hl)) hne
  | succ fuel ih =>
    intro l hl hne
    match l with
    | x :: xs =>
      rw [batchesAux, List.length_cons]
      by_cases hsmall : (x :: xs).length ≤ bs
      · rw [List.drop_of_length_le hsmall, batchesAux_nil]
        have hlt : (x :: xs).length - 1 < bs := by
          simp only [List.length_cons] at hsmall ⊢
          omega
        rw [Nat.div_eq_of_lt hlt]
        rfl
      · have hdle : ((x :: xs).drop bs).length ≤ fuel := by
          rw [List.length_drop]
          simp only [List.length_cons] at hl ⊢
          omega
        have hdne : (x :: xs).drop bs ≠ [] := by
          intro h
          have hc := congrArg List.length h
          rw [List.length_drop] at hc
          simp only [List.length_cons, List.length_nil] at hc hsmall
          omega
        rw [ih _ hdle hdne, List.length_drop]
        have hgt : bs < (x :: xs).length := Nat.lt_of_not_le hsmall
        have h1 : (x :: xs).length - 1 = ((x :: xs).length - bs - 1) + bs := by omega
        rw [h1, Nat.add_div_right _ (Nat.lt_of_lt_of_le Nat.zero_lt_one hbs)]

theorem batchesAux_dropLast (bs : Nat) (hbs : 1 ≤ bs) :
    ∀ (fuel : Nat) (l : List α), l.length ≤ fuel →
      ∀ b ∈ (batchesAux bs fuel l).dropLast, b.length = bs := by
  intro fuel
  induction fuel with
  | zero =>
    intro l hl
    rw [List.length_eq_zero.mp (Nat.le_zero.mp hl)]
    intro b hb
    exact absurd hb (by simp [batchesAux_nil])
  | succ fuel ih =>
    intro l hl b hb
    match l with
    | [] => exact absurd hb (by simp [batchesAux_nil])
    | x :: xs =>
      rw [batchesAux] at hb
      by_cases hsmall : (x :: xs).length ≤ bs
      · rw [List.drop_of_length_le hsmall, batchesAux_nil] at hb
        exact absurd hb (by simp)
      · have hdle : ((x :: xs).drop bs).length ≤ fuel := by
          rw [List.length_drop]
          simp only [List.length_cons] at hl ⊢
          omega
        have hdne : ((x :: xs).drop bs) ≠ [] := by
          intro h
          have hc := congrArg List.length h
          rw [List.length_drop] at hc
          simp only [List.length_cons, List.length_nil] at hc hsmall
          omega
        have hrec : batchesAux bs fuel ((x :: xs).drop bs) ≠ [] := by
          intro h
          have hc := congrArg List.flatten h
          rw [batchesAux_flatten bs hbs fuel _ hdle] at hc
          exact hdne hc
        obtain ⟨r, rs, hrl⟩ := List.exists_cons_of_ne_nil hrec
        rw [hrl, List.dropLast_cons₂, List.mem_cons] at hb
        rcases hb with hb | hb
        · rw [hb, List.length_take, List.length_cons]
          simp only [List.length_cons] at hsmall
          omega
        · exact ih _ hdle b (by rw [hrl]; exact hb)

theorem batchesAux_getLast (bs : Nat) (hbs : 1 ≤ bs) :
    ∀ (fuel : Nat) (l : List α), l.length ≤ fuel → l ≠ [] →
      ∃ b, (batchesAux bs fuel l).getLast? = some b ∧
        b.length = (if l.length % bs = 0 then bs else l.length % bs) := by
  intro fuel
  induction fuel with
  | zero =>
    intro l hl hne
    exact absurd (List.length_eq_zero.mp (Nat.le_zero.mp hl)) hne
  | succ fuel ih =>
    intro l hl hne
    match l with
    | x :: xs =>
      rw [batchesAux]
      by_cases hsmall : (x :: xs).length ≤ bs
      · rw [List.drop_of_length_le hsmall, batchesAux_nil]
        refine ⟨x :: xs, by rw [List.take_of_length_le hsmall]; rfl, ?_⟩
        rcases Nat.lt_or_ge (x :: xs).length bs with hlt | hge
        · rw [Nat.mod_eq_of_lt hlt, if_neg (by simp)]
        · have heq : (x :: xs).length = bs := Nat.le_antisymm hsmall hge
          rw [heq, Nat.mod_self, if_pos rfl]
      · have hdle : ((x :: xs).drop bs).length ≤ fuel := by
          rw [List.length_drop]
          simp only [List.length_cons] at hl ⊢
          omega
        have hdne : ((x :: xs).drop bs) ≠ [] := by
          intro h
          have hc := congrArg List.length h
          rw [List.length_drop] at hc
          simp only [List.length_cons, List.length_nil] at hc hsmall
          omega
        obtain ⟨b, hb, hblen⟩ := ih _ hdle hdne
        obtain ⟨r, rs, hrl⟩ := List.exists_cons_of_ne_nil
          (show batchesAux bs fuel ((x :: xs).drop bs) ≠ [] by
            intro h
            rw [h] at hb
            exact absurd hb (by simp))
        refine ⟨b, ?_, ?_⟩
        · rw [hrl, List.getLast?_cons_cons, ← hrl]
          exact hb
        · rw [hblen, List.length_drop]
          have hge : bs ≤ (x :: xs).length := Nat.le_of_not_le hsmall
          rw [Nat.mod_eq_sub_mod hge]

theorem sendBatches_noFail (fails : Nat → Bool) (hf : ∀ j, fails j = false) :
    ∀ (k : Nat) (bsl : List (List α)), sendBatches fails k bsl = (bsl, true) := by
  intro k bsl
  induction bsl generalizing k with
  | nil => rfl
  | cons b rest ih =>
    rw [sendBatches, if_neg (by rw [hf k]; exact Bool.false_ne_true), ih]

theorem sendBatches_failAt (fails : Nat → Bool) :
    ∀ (bsl : List (List α)) (k m : Nat), (∀ j, j < m → fails (k + j) = false) →
      fails (k + m) = true → m < bsl.length →
      sendBatches fails k bsl = (bsl.take (m + 1), false) := by
  intro bsl
  induction bsl with
  | nil =>
    intro k m _ _ hlt
    exact absurd hlt (by simp)
  | cons b rest ih =>
    intro k m hbefore hat hlt
    cases m with
    | zero =>
      rw [sendBatches, if_pos (by rw [Nat.add_zero] at hat; rw [hat])]
      simp
    | succ m =>
      have h0 : fails k = false := by
        have h := hbefore 0 (Nat.succ_pos m)
        rwa [Nat.add_zero] at h
      have h1 : ∀ j, j < m → fails (k + 1 + j) = false := by
        intro j hj
        have h := hbefore (j + 1) (by omega)
        rwa [show k + (j + 1) = k + 1 + j by omega] at h
      have h2 : fails (k + 1 + m) = true := by
        rwa [show k + 1 + m = k + (m + 1) by omega]
      have h3 : m < rest.length := by
        simp only [List.length_cons] at hlt
        omega
      rw [sendBatches, if_neg (by rw [h0]; exact Bool.false_ne_true)]
      simp only [ih (k + 1) m h1 h2 h3, List.take_succ_cons]

/-! ### Lemmas about `replaceFirst` and `.git` occurrences -/

theorem hasOccur_cons_false {pat : List Char} {c : Char} {rest : List Char}
    (h : hasOccur pat (c :: rest) = false) :
    pat.isPrefixOf (c :: rest) = false ∧ hasOccur pat rest = false := by
  rw [hasOccur] at h
  exact Bool.or_eq_false_iff.mp h

/-- Whether `.git` is a prefix of a list of length at least four does not
depend on anything past the first four characters. -/
theorem gitPat_isPrefixOf_four (c d e f : Char) (xs ys : List Char) :
    gitPat.isPrefixOf (c :: d :: e :: f :: xs) =
      gitPat.isPrefixOf (c :: d :: e :: f :: ys) := by
  simp [gitPat, List.isPrefixOf]

/-- No occurrence of `.git` can straddle the boundary of `xs ++ ".git"`:
if `.git` does not occur in the non-empty list `xs`, it is not a prefix of
`xs ++ ".git"` either (the first character of `.git` is `.`, which differs
from each of `g`, `i`, `t`). -/
theorem gitPat_isPrefixOf_append (xs : List Char) (hne : xs ≠ [])
    (h : hasOccur gitPat xs = false) :
    gitPat.isPrefixOf (xs ++ gitPat) = false := by
  match xs with
  | [] => exact absurd rfl hne
  | [c] => simp [gitPat, List.isPrefixOf]
  | [c, d] => simp [gitPat, List.isPrefixOf]
  | [c, d, e] => simp [gitPat, List.isPrefixOf]
  | c :: d :: e :: f :: rest =>
    have hp := (hasOccur_cons_false h).1
    calc gitPat.isPrefixOf ((c :: d :: e :: f :: rest) ++ gitPat)
        = gitPat.isPrefixOf (c :: d :: e :: f :: rest) :=
          gitPat_isPrefixOf_four c d e f (rest ++ gitPat) rest
      _ = false := hp

/-- JS first-occurrence `replace` does strip a trailing `.git` whenever
`.git` does not also occur earlier in the segment. -/
theorem replaceFirst_gitPat_append (p : List Char) (h : hasOccur gitPat p = false) :
    replaceFirst gitPat (p ++ gitPat) = p := by
  induction p with
  | nil => decide
  | cons c p ih =>
    have h2 := (hasOccur_cons_false h).2
    have hpre := gitPat_isPrefixOf_append (c :: p) (by simp) h
    rw [List.cons_append, replaceFirst,
      if_neg (fun hcon => Bool.false_ne_true (hpre ▸ hcon.2))]
    rw [ih h2]

/-! ## Claim theorems: orchestrator cleanup and namespace derivation -/

/-- Claim C1, as stated, is FALSE on the code: in a run where the batch
upsert stage throws (`env = ⟨false, false, false, true⟩`), the error is
rethrown to the caller (`.2 = false`) but the cleanup removal of the
working copy is never executed — `run` has no `finally` clause, and the
`fs.rm(repoDir, ...)` on line 160 sits inside the `try` block after the
upsert loop. -/
theorem run_cleanup_counterexample :
    (runModel ⟨false, false, false, true⟩).2 = false ∧
      OrchEvent.removeWorkCopy ∉ (runModel ⟨false, false, false, true⟩).1 := by
  decide

/-- Claim C1, amended: the local working copy is removed at the end of a
run exactly when every stage succeeded; on any stage failure the error is
rethrown to the caller without the cleanup removal (no `finally` clause).
A stale working copy left by a failed run is instead removed by the
pre-clean (`fs.rm(tempDir, ...)` on line 67) at the start of the next
run's clone step, which every run performs before cloning. -/
theorem run_cleanup_amended (env : OrchEnv) :
    (runModel env).1.head? = some OrchEvent.deriveNs ∧
      OrchEvent.preClean ∈ (runModel env).1 ∧
      ((runModel env).2 = true ↔
        env.cloneFails = false ∧ env.listFails = false ∧
          env.processFails = false ∧ env.upsertFails = false) ∧
      (OrchEvent.removeWorkCopy ∈ (runModel env).1 ↔ (runModel env).2 = true) := by
  obtain ⟨c, li, pr, u⟩ := env
  cases c <;> cases li <;> cases pr <;> cases u <;> decide

/-- Claim C2, as stated, is FALSE on the code: for the source reference
`"https://ex.com/b.gitx"`, whose final path segment `b.gitx` does not end
in `.git`, the claim says the namespace is the segment unchanged
(`b.gitx`), but line 132's `.replace('.git', '')` removes the first
occurrence of `.git` anywhere and produces `bx`. -/
theorem derive_namespace_counterexample :
    deriveNamespace ("https://ex.com/b.gitx".toList) = "bx".toList ∧
      specNamespace ("https://ex.com/b.gitx".toList) = "b.gitx".toList ∧
      deriveNamespace ("https://ex.com/b.gitx".toList) ≠
        specNamespace ("https://ex.com/b.gitx".toList) := by
  decide

/-- Claim C2, amended: the namespace is the final `/`-separated segment of
the reference with the FIRST occurrence of `.git` (anywhere in the
segment) removed; in particular, whenever the segment ends in `.git` and
`.git` occurs nowhere earlier in it, the trailing version-control suffix
is stripped exactly as the claim says.  (`.git` occurring not at the end
is NOT left intact — see the counterexample.) -/
theorem derive_namespace_amended (url p : List Char)
    (hseg : lastSegment url = p ++ gitPat)
    (hocc : hasOccur gitPat p = false) :
    deriveNamespace url = p := by
  unfold deriveNamespace
  rw [hseg]
  exact replaceFirst_gitPat_append p hocc

/-- Witness for `derive_namespace_amended` at the repository's own URL. -/
theorem derive_namespace_amended_witness :
    deriveNamespace ("https://github.com/upstash/docs2vector.git".toList) =
      "docs2vector".toList :=
  derive_namespace_amended _ _ (by decide) (by decide)

/-! ## Claim theorems: the batch upsert pipeline -/

/-- Claim C3: for a non-empty chunk list and `batchSize ≥ 1`, the loop on
lines 152-157 (run against a store that never fails) issues exactly
`ceil(n / batchSize) = (n + batchSize - 1) / batchSize` store calls; each
call carries a consecutive slice in original order and concatenating the
slices in call order reconstructs the list (`flatten = l`); every slice
has size `batchSize` except possibly the last, whose size is
`n % batchSize` when that is nonzero and `batchSize` otherwise. -/
theorem batch_upsert_shape (bs : Nat) (l : List α) (hbs : 1 ≤ bs) (hl : l ≠ []) :
    (upsertAll (fun _ => false) bs l).1.length = (l.length + bs - 1) / bs ∧
      (upsertAll (fun _ => false) bs l).1.flatten = l ∧
      (∀ b ∈ (upsertAll (fun _ => false) bs l).1.dropLast, b.length = bs) ∧
      (∃ b, (upsertAll (fun _ => false) bs l).1.getLast? = some b ∧
        b.length = (if l.length % bs = 0 then bs else l.length % bs)) := by
  have hsend : upsertAll (fun _ => false) bs l = (batches bs l, true) :=
    sendBatches_noFail _ (fun _ => rfl) 0 (batches bs l)
  rw [hsend]
  refine ⟨?_, ?_, ?_, ?_⟩
  · rw [batches, batchesAux_length bs hbs l.length l (Nat.le_refl _) hl]
    have hn : 1 ≤ l.length := List.length_pos.mpr hl
    have h1 : l.length + bs - 1 = (l.length - 1) + bs := by omega
    rw [h1, Nat.add_div_right _ (Nat.lt_of_lt_of_le Nat.zero_lt_one hbs)]
  · exact batchesAux_flatten bs hbs l.length l (Nat.le_refl _)
  · exact batchesAux_dropLast bs hbs l.length l (Nat.le_refl _)
  · exact batchesAux_getLast bs hbs l.length l (Nat.le_refl _) hl

/-- Witness for `batch_upsert_shape`: five chunks with `batchSize = 2`
give three calls `[0,1]`, `[2,3]`, `[4]`. -/
theorem batch_upsert_shape_witness :
    (1 ≤ 2 ∧ ([0, 1, 2, 3, 4] : List Nat) ≠ []) ∧
      ((upsertAll (fun _ => false) 2 ([0, 1, 2, 3, 4] : List Nat)).1.length = 3 ∧
        (upsertAll (fun _ => false) 2 ([0, 1, 2, 3, 4] : List Nat)).1.flatten =
          [0, 1, 2, 3, 4]) :=
  ⟨⟨by decide, by decide⟩, by
    have h := batch_upsert_shape 2 ([0, 1, 2, 3, 4] : List Nat) (by decide) (by decide)
    exact ⟨h.1, h.2.1⟩⟩

/-- Claim C4: when the store call for batch `k` (0-based) is the first to
fail, the loop on lines 152-157 issues exactly the calls for batches
`0..k` (the failing call included) and aborts with the error propagating
(`.2 = false`): later batches are never sent, and the trace contains no
action besides the upsert calls themselves — in particular nothing
compensating for the batches already sent. -/
theorem batch_upsert_abort (fails : Nat → Bool) (bs : Nat) (l : List α) (k : Nat)
    (hbefore : ∀ j, j < k → fails j = false) (hk : fails k = true)
    (hlt : k < (batches bs l).length) :
    upsertAll fails bs l = ((batches bs l).take (k + 1), false) := by
  have h := sendBatches_failAt fails (batches bs l) 0 k
    (by intro j hj; rw [Nat.zero_add]; exact hbefore j hj)
    (by rw [Nat.zero_add]; exact hk) hlt
  exact h

set_option maxRecDepth 10000 in
/-- Witness for `batch_upsert_abort`: 250 chunks with `batchSize = 100`
are batched as three calls of sizes 100, 100, 50; when the second call
(index 1) fails, only the first two are issued and the error surfaces. -/
theorem batch_upsert_abort_witness :
    upsertAll (fun j => j == 1) 100 (List.range 250) =
      ((batches 100 (List.range 250)).take 2, false) :=
  batch_upsert_abort (fun j => j == 1) 100 (List.range 250) 1
    (by decide) (by decide) (by decide)

/-! ## The recursive text splitter

Modelled from the spec: the splitter itself is langchain's
`RecursiveCharacterTextSplitter`, which the repository only configures
(`Docs2Vector.js` lines 50-54: `chunkSize 1000`, `chunkOverlap 200`,
separators `["\n\n", "\n", " ", ""]`); its code is not under `src/`.  The
model follows the spec's §4.2 algorithm: text that fits the budget is one
chunk; otherwise split on the first separator into candidate pieces,
greedily accumulate consecutive pieces into a running chunk until the
next piece would push it past `chunkSize`, emit, step back `chunkOverlap`
units of text from the end of the emitted chunk to begin the next one,
and recurse with the next (finer) separator into any single piece that
itself exceeds `chunkSize`; the empty separator splits between arbitrary
characters.  Splitting keeps each separator occurrence attached to the
piece it terminates, so that the pieces concatenate back to the input
exactly (the spec's §8 requires the chunks to cover the input with no
gaps); when the next chunk is started, the stepped-back overlap is capped
so the running chunk never exceeds `chunkSize`, making `chunkOverlap`
"approximate" exactly as §4.2 says.  The model is total over all inputs
(spec §4.2: no failure modes). -/

/-- Split `t` at every occurrence of the non-empty separator `sep`,
keeping each separator occurrence at the end of the piece it closes.
`acc` is the piece under construction; the fuel (instantiated with the
length of `t`, which bounds the number of consumed characters) makes the
recursion structural. -/
def splitKSAux (sep : List Char) : Nat → List Char → List Char → List (List Char)
  | 0, acc, t => if acc ++ t = [] then [] else [acc ++ t]
  | _ + 1, acc, [] => if acc = [] then [] else [acc]
  | fuel + 1, acc, c :: rest =>
    if sep.isPrefixOf (c :: rest) then
      (acc ++ sep) :: splitKSAux sep fuel [] ((c :: rest).drop sep.length)
    else
      splitKSAux sep fuel (acc ++ [c]) rest

/-- Split on one separator into candidate pieces.  The empty separator
(the list's last) splits between arbitrary characters, i.e. into
single-character pieces. -/
def splitKeepSep (sep : List Char) (t : List Char) : List (List Char) :=
  if sep = [] then t.map (fun c => [c]) else splitKSAux sep t.length [] t

/-- The last `n` elements of a list. -/
def takeRight (n : Nat) (l : List α) : List α := l.drop (l.length - n)

/-- Greedy accumulation of candidate pieces into chunks (spec §4.2 steps
3-4).  `recur` splits an oversized piece with the remaining finer
separators; `cur` is the running chunk.  When the next piece `p` fits but
would push `cur` past `cs`, `cur` is emitted and the next chunk starts
with the overlap: the last `min ov (cs - p.length)` characters of `cur`
(stepping back `ov` units of text, capped so the new running chunk stays
within the budget), followed by `p`. -/
def mergeRec (recur : List Char → List (List Char)) (cs ov : Nat) :
    List (List Char) → List Char → List (List Char)
  | [], cur => if cur = [] then [] else [cur]
  | p :: ps, cur =>
    if cs < p.length then
      (if cur = [] then [] else [cur]) ++ recur p ++ mergeRec recur cs ov ps []
    else if cs < cur.length + p.length then
      cur :: mergeRec recur cs ov ps (takeRight (min ov (cs - p.length)) cur ++ p)
    else
      mergeRec recur cs ov ps (cur ++ p)

/-- The recursive splitter (spec §4.2): `cs` is `chunkSize`, `ov` is
`chunkOverlap`, `seps` the ordered separator list.  Empty input yields
zero chunks; input within the budget is one chunk; otherwise split on the
coarsest separator and merge greedily, recursing with the finer
separators into oversized pieces. -/
def splitTextAux (cs ov : Nat) : List (List Char) → List Char → List (List Char)
  | [], [] => []
  | [], c :: rest => [c :: rest]
  | _ :: _, [] => []
  | sep :: rest, c :: cs2 =>
    if (c :: cs2).length ≤ cs then [c :: cs2]
    else mergeRec (fun piece => splitTextAux cs ov rest piece) cs ov
      (splitKeepSep sep (c :: cs2)) []

/-- The separator list configured on line 53. -/
def defaultSeparators : List (List Char) :=
  [['\n', '\n'], ['\n'], [' '], []]

/-- The splitter exactly as configured on lines 50-54. -/
def splitDefault (t : List Char) : List (List Char) :=
  splitTextAux 1000 200 defaultSeparators t

/-- Reassemble chunks dropping a given prefix length from each chunk
(overlapping content is duplicated at the start of a chunk; dropping it
recovers the distinct content).  Missing drop amounts count as zero. -/
def stitch : List (List Char) → List Nat → List Char
  | [], _ => []
  | c :: cs, [] => c ++ stitch cs []
  | c :: cs, o :: os => c.drop o ++ stitch cs os

/-- The chunks cover `t` with no gaps, in document order: dropping a
prefix of each chunk (the part duplicated from the previous chunk's
overlap; the first chunk is kept whole) and concatenating what remains
yields `t` exactly — so every character of `t` appears in some chunk, in
order, with no gaps between consecutive chunks' distinct content. -/
def covers (chunks : List (List Char)) (t : List Char) : Prop :=
  ∃ os : List Nat, stitch chunks (0 :: os) = t

/-! ### Lemmas about splitting into pieces -/

theorem splitKSAux_flatten (sep : List Char) :
    ∀ (fuel : Nat) (acc t : List Char),
      (splitKSAux sep fuel acc t).flatten = acc ++ t := by
  intro fuel
  induction fuel with
  | zero =>
    intro acc t
    rw [splitKSAux]
    by_cases h : acc ++ t = [] <;> simp [h]
  | succ fuel ih =>
    intro acc t
    match t with
    | [] =>
      rw [splitKSAux]
      by_cases h : acc = [] <;> simp [h]
    | c :: rest =>
      rw [splitKSAux]
      by_cases h : sep.isPrefixOf (c :: rest)
      · rw [if_pos h, List.flatten_cons, ih]
        obtain ⟨tl, htl⟩ := List.isPrefixOf_iff_prefix.mp h
        rw [← htl, List.nil_append, List.drop_left, List.append_assoc]
      · rw [if_neg h, ih, List.append_assoc]
        rfl

theorem splitKeepSep_flatten (sep t : List Char) :
    (splitKeepSep sep t).flatten = t := by
  rw [splitKeepSep]
  by_cases h : sep = []
  · rw [if_pos h]
    induction t with
    | nil => rfl
    | cons c rest ih => simp [ih]
  · rw [if_neg h, splitKSAux_flatten, List.nil_append]

theorem splitKSAux_ne_nil (sep : List Char) (hsep : sep ≠ []) :
    ∀ (fuel : Nat) (acc t : List Char), ∀ p ∈ splitKSAux sep fuel acc t, p ≠ [] := by
  intro fuel
  induction fuel with
  | zero =>
    intro acc t p hp
    rw [splitKSAux] at hp
    by_cases h : acc ++ t = []
    · rw [if_pos h] at hp
      exact absurd hp (by simp)
    · rw [if_neg h] at hp
      rw [List.mem_singleton.mp hp]
      exact h
  | succ fuel ih =>
    intro acc t p hp
    match t with
    | [] =>
      rw [splitKSAux] at hp
      by_cases h : acc = []
      · rw [if_pos h] at hp
        exact absurd hp (by simp)
      · rw [if_neg h] at hp
        rw [List.mem_singleton.mp hp]
        exact h
    | c :: rest =>
      rw [splitKSAux] at hp
      by_cases h : sep.isPrefixOf (c :: rest)
      · rw [if_pos h, List.mem_cons] at hp
        rcases hp with hp | hp
        · rw [hp]
          simp [hsep]
        · exact ih [] _ p hp
      · rw [if_neg h] at hp
        exact ih (acc ++ [c]) rest p hp

theorem splitKeepSep_ne_nil (sep t : List Char) :
    ∀ p ∈ splitKeepSep sep t, p ≠ [] := by
  intro p hp
  rw [splitKeepSep] at hp
  by_cases h : sep = []
  · rw [if_pos h, List.mem_map] at hp
    obtain ⟨c, _, hc⟩ := hp
    rw [← hc]
    simp
  · rw [if_neg h] at hp
    exact splitKSAux_ne_nil sep h t.length [] t p hp

theorem splitKeepSep_nil_length (t : List Char) :
    ∀ p ∈ splitKeepSep [] t, p.length = 1 := by
  intro p hp
  rw [splitKeepSep, if_pos rfl, List.mem_map] at hp
  obtain ⟨c, _, hc⟩ := hp
  rw [← hc]
  rfl

theorem takeRight_length (n : Nat) (l : List α) :
    (takeRight n l).length = min n l.length := by
  rw [takeRight, List.length_drop]
  omega

/-! ### The chunk-size bound -/

theorem mergeRec_length_le (recur : List Char → List (List Char)) (cs ov : Nat) :
    ∀ (ps : List (List Char)) (cur : List Char), cur.length ≤ cs →
      (∀ p ∈ ps, cs < p.length → ∀ c ∈ recur p, c.length ≤ cs) →
      ∀ c ∈ mergeRec recur cs ov ps cur, c.length ≤ cs := by
  intro ps
  induction ps with
  | nil =>
    intro cur hcur _ c hc
    rw [mergeRec] at hc
    by_cases h : cur = []
    · rw [if_pos h] at hc
      exact absurd hc (by simp)
    · rw [if_neg h, List.mem_singleton] at hc
      rw [hc]
      exact hcur
  | cons p ps ih =>
    intro cur hcur hrec c hc
    rw [mergeRec] at hc
    by_cases h1 : cs < p.length
    · rw [if_pos h1] at hc
      rw [List.append_assoc, List.mem_append, List.mem_append] at hc
      rcases hc with hc | hc | hc
      · by_cases h : cur = []
        · rw [h] at hc
          exact absurd hc (by simp)
        · rw [if_neg h, List.mem_singleton] at hc
          rw [hc]
          exact hcur
      · exact hrec p (List.mem_cons_self p ps) h1 c hc
      · exact ih [] (Nat.zero_le cs) (fun q hq => hrec q (List.mem_cons_of_mem p hq)) c hc
    · rw [if_neg h1] at hc
      have hple : p.length ≤ cs := Nat.le_of_not_lt h1
      by_cases h2 : cs < cur.length + p.length
      · rw [if_pos h2, List.mem_cons] at hc
        rcases hc with hc | hc
        · rw [hc]
          exact hcur
        · refine ih _ ?_ (fun q hq => hrec q (List.mem_cons_of_mem p hq)) c hc
          rw [List.length_append, takeRight_length]
          omega
      · rw [if_neg h2] at hc
        refine ih _ ?_ (fun q hq => hrec q (List.mem_cons_of_mem p hq)) c hc
        rw [List.length_append]
        omega

theorem splitTextAux_length_le (cs ov : Nat) (hcs : 1 ≤ cs) :
    ∀ (seps : List (List Char)), [] ∈ seps →
      ∀ (t : List Char), ∀ c ∈ splitTextAux cs ov seps t, c.length ≤ cs := by
  intro seps
  induction seps with
  | nil =>
    intro h
    exact absurd h (by simp)
  | cons sep rest ih =>
    intro hmem t c hc
    match t with
    | [] => exact absurd hc (by simp [splitTextAux])
    | x :: xs =>
      rw [splitTextAux] at hc
      by_cases hfit : (x :: xs).length ≤ cs
      · rw [if_pos hfit, List.mem_singleton] at hc
        rw [hc]
        exact hfit
      · rw [if_neg hfit] at hc
        refine mergeRec_length_le _ cs ov _ [] (Nat.zero_le cs) ?_ c hc
        intro p hp hplong c2 hc2
        by_cases hsep : sep = []
        · rw [hsep] at hp
          rw [splitKeepSep_nil_length (x :: xs) p hp] at hplong
          omega
        · have hrest : [] ∈ rest := by
            rcases List.mem_cons.mp hmem with h | h
            · exact absurd h.symm hsep
            · exact h
          exact ih hrest p c2 hc2

/-! ### Coverage: the chunks stitch back to the input -/

theorem stitch_nil (os : List Nat) : stitch [] os = [] := rfl

theorem stitch_cons (c : List Char) (rest : List (List Char)) (o : Nat) (os : List Nat) :
    stitch (c :: rest) (o :: os) = c.drop o ++ stitch rest os := rfl

theorem stitch_append :
    ∀ (A B : List (List Char)) (osA osB : List Nat), osA.length = A.length →
      stitch (A ++ B) (osA ++ osB) = stitch A osA ++ stitch B osB := by
  intro A
  induction A with
  | nil =>
    intro B osA osB hlen
    have hosA : osA = [] := List.length_eq_zero.mp (by simpa using hlen)
    subst hosA
    rfl
  | cons c A ih =>
    intro B osA osB hlen
    match osA with
    | o :: osA2 =>
      rw [List.cons_append, List.cons_append, stitch_cons, stitch_cons,
        ih B osA2 osB (by simpa using hlen), List.append_assoc]

theorem mergeRec_ne (recur : List Char → List (List Char)) (cs ov : Nat) :
    ∀ (ps : List (List Char)) (cur : List Char),
      (∀ p ∈ ps, p ≠ []) →
      (∀ p ∈ ps, cs < p.length → recur p ≠ []) →
      (cur ≠ [] ∨ ps ≠ []) →
      mergeRec recur cs ov ps cur ≠ [] := by
  intro ps
  induction ps with
  | nil =>
    intro cur _ _ hor
    rcases hor with h | h
    · rw [mergeRec, if_neg h]
      simp
    · exact absurd rfl h
  | cons p ps ih =>
    intro cur hps hrec _
    rw [mergeRec]
    by_cases h1 : cs < p.length
    · rw [if_pos h1]
      have hne : recur p ≠ [] := hrec p (List.mem_cons_self p ps) h1
      simp [hne]
    · rw [if_neg h1]
      by_cases h2 : cs < cur.length + p.length
      · rw [if_pos h2]
        simp
      · rw [if_neg h2]
        refine ih _ (fun q hq => hps q (List.mem_cons_of_mem p hq))
          (fun q hq => hrec q (List.mem_cons_of_mem p hq)) (Or.inl ?_)
        have hp : p ≠ [] := hps p (List.mem_cons_self p ps)
        intro h
        exact hp (List.append_eq_nil.mp h).2

theorem splitTextAux_ne (cs ov : Nat) :
    ∀ (seps : List (List Char)) (t : List Char), t ≠ [] →
      splitTextAux cs ov seps t ≠ [] := by
  intro seps
  induction seps with
  | nil =>
    intro t ht
    match t with
    | c :: rest => simp [splitTextAux]
  | cons sep rest ih =>
    intro t ht
    match t with
    | x :: xs =>
      rw [splitTextAux]
      by_cases hfit : (x :: xs).length ≤ cs
      · rw [if_pos hfit]
        simp
      · rw [if_neg hfit]
        refine mergeRec_ne _ cs ov _ [] (splitKeepSep_ne_nil sep (x :: xs))
          (fun p hp _ => ih p (splitKeepSep_ne_nil sep (x :: xs) p hp)) (Or.inr ?_)
        intro hnil
        have hfl := splitKeepSep_flatten sep (x :: xs)
        rw [hnil] at hfl
        exact List.cons_ne_nil x xs hfl.symm

theorem mergeRec_stitch (recur : List Char → List (List Char)) (cs ov : Nat) :
    ∀ (ps : List (List Char)) (cur : List Char) (d : Nat),
      d ≤ cur.length →
      (∀ p ∈ ps, p ≠ []) →
      (∀ p ∈ ps, cs < p.length →
        recur p ≠ [] ∧ ∃ osp, osp.length + 1 = (recur p).length ∧
          stitch (recur p) (0 :: osp) = p) →
      (cur = [] ∧ ps = []) ∨
      ∃ os, os.length + 1 = (mergeRec recur cs ov ps cur).length ∧
        stitch (mergeRec recur cs ov ps cur) (d :: os) = cur.drop d ++ ps.flatten := by
  intro ps
  induction ps with
  | nil =>
    intro cur d hd _ _
    by_cases h : cur = []
    · exact Or.inl ⟨h, rfl⟩
    · refine Or.inr ⟨[], by simp [mergeRec, h], ?_⟩
      rw [mergeRec, if_neg h, stitch_cons]
      simp [stitch_nil]
  | cons p ps ih =>
    intro cur d hd hps hrec
    have hpne : p ≠ [] := hps p (List.mem_cons_self p ps)
    have hps2 : ∀ q ∈ ps, q ≠ [] := fun q hq => hps q (List.mem_cons_of_mem p hq)
    have hrec2 : ∀ q ∈ ps, cs < q.length →
        recur q ≠ [] ∧ ∃ osp, osp.length + 1 = (recur q).length ∧
          stitch (recur q) (0 :: osp) = q :=
      fun q hq => hrec q (List.mem_cons_of_mem p hq)
    rw [mergeRec]
    by_cases h1 : cs < p.length
    · rw [if_pos h1]
      obtain ⟨hrne, osp, hosplen, hospst⟩ := hrec p (List.mem_cons_self p ps) h1
      -- an aligned stitching of the tail chunks to `ps.flatten`
      have htail : ∃ o3, o3.length = (mergeRec recur cs ov ps []).length ∧
          stitch (mergeRec recur cs ov ps []) o3 = ps.flatten := by
        rcases ih [] 0 (Nat.le_refl 0) hps2 hrec2 with ⟨_, hnil⟩ | ⟨os3, hl3, hs3⟩
        · rw [hnil]
          exact ⟨[], rfl, rfl⟩
        · exact ⟨0 :: os3, by rw [List.length_cons, hl3], by simpa using hs3⟩
      obtain ⟨o3, hl3, hs3⟩ := htail
      have hcomb : stitch (recur p ++ mergeRec recur cs ov ps []) (0 :: (osp ++ o3)) =
          p ++ ps.flatten := by
        have hstep := stitch_append (recur p) (mergeRec recur cs ov ps []) (0 :: osp) o3
          (by rw [List.length_cons, hosplen])
        rw [List.cons_append] at hstep
        rw [hstep, hospst, hs3]
      by_cases hcur : cur = []
      · rw [if_pos hcur]
        subst hcur
        have hd0 : d = 0 := Nat.le_zero.mp hd
        subst hd0
        refine Or.inr ⟨osp ++ o3, ?_, ?_⟩
        · simp only [List.nil_append, List.length_append]
          omega
        · rw [List.nil_append, hcomb, List.flatten_cons]
          rfl
      · rw [if_neg hcur]
        refine Or.inr ⟨0 :: (osp ++ o3), ?_, ?_⟩
        · simp only [List.singleton_append, List.length_append, List.length_cons]
          omega
        · rw [List.singleton_append, List.cons_append, stitch_cons, hcomb,
            List.flatten_cons]
    · rw [if_neg h1]
      have hple : p.length ≤ cs := Nat.le_of_not_lt h1
      by_cases h2 : cs < cur.length + p.length
      · rw [if_pos h2]
        set newCur := takeRight (min ov (cs - p.length)) cur ++ p with hnc
        have hncne : newCur ≠ [] := by
          intro h
          exact hpne (List.append_eq_nil.mp h).2
        set keepLen := (takeRight (min ov (cs - p.length)) cur).length with hkl
        have hklle : keepLen ≤ newCur.length := by
          rw [hnc, List.length_append]
          omega
        rcases ih newCur keepLen hklle hps2 hrec2 with ⟨hc, _⟩ | ⟨os2, hl2, hs2⟩
        · exact absurd hc hncne
        · refine Or.inr ⟨keepLen :: os2, by simpa using hl2, ?_⟩
          rw [stitch_cons, hs2, hnc, hkl, List.drop_left, List.flatten_cons]
      · rw [if_neg h2]
        rcases ih (cur ++ p) d
            (Nat.le_trans hd (by rw [List.length_append]; omega)) hps2 hrec2 with
          ⟨hc, _⟩ | ⟨os2, hl2, hs2⟩
        · exact absurd (List.append_eq_nil.mp hc).2 hpne
        · refine Or.inr ⟨os2, hl2, ?_⟩
          rw [hs2, List.drop_append_of_le_length hd, List.flatten_cons,
            List.append_assoc]

theorem splitTextAux_covers (cs ov : Nat) :
    ∀ (seps : List (List Char)) (t : List Char),
      (t = [] ∧ splitTextAux cs ov seps t = []) ∨
      ∃ os, os.length + 1 = (splitTextAux cs ov seps t).length ∧
        stitch (splitTextAux cs ov seps t) (0 :: os) = t := by
  intro seps
  induction seps with
  | nil =>
    intro t
    match t with
    | [] => exact Or.inl ⟨rfl, rfl⟩
    | c :: rest =>
      refine Or.inr ⟨[], rfl, ?_⟩
      simp [splitTextAux, stitch]
  | cons sep rest ih =>
    intro t
    match t with
    | [] => exact Or.inl ⟨rfl, rfl⟩
    | x :: xs =>
      rw [splitTextAux]
      by_cases hfit : (x :: xs).length ≤ cs
      · rw [if_pos hfit]
        refine Or.inr ⟨[], rfl, ?_⟩
        simp [stitch]
      · rw [if_neg hfit]
        have hrec : ∀ p ∈ splitKeepSep sep (x :: xs), cs < p.length →
            splitTextAux cs ov rest p ≠ [] ∧
              ∃ osp, osp.length + 1 = (splitTextAux cs ov rest p).length ∧
                stitch (splitTextAux cs ov rest p) (0 :: osp) = p := by
          intro p hp _
          have hpne : p ≠ [] := splitKeepSep_ne_nil sep (x :: xs) p hp
          refine ⟨splitTextAux_ne cs ov rest p hpne, ?_⟩
          rcases ih p with ⟨hc, _⟩ | h
          · exact absurd hc hpne
          · exact h
        rcases mergeRec_stitch _ cs ov (splitKeepSep sep (x :: xs)) [] 0
            (Nat.le_refl 0) (splitKeepSep_ne_nil sep (x :: xs)) hrec with
          ⟨_, hpsnil⟩ | ⟨os, hl, hs⟩
        · have hfl := splitKeepSep_flatten sep (x :: xs)
          rw [hpsnil] at hfl
          exact absurd hfl.symm (List.cons_ne_nil x xs)
        · refine Or.inr ⟨os, hl, ?_⟩
          rw [hs, splitKeepSep_flatten]
          rfl

/-! ## Claim theorems: the recursive text splitter -/

/-- Claim C5: with the configured parameters (`chunkSize 1000`,
`chunkOverlap 200`, separators `["\n\n", "\n", " ", ""]`), an empty input
produces zero chunks, and a non-empty input of length at most `chunkSize`
produces exactly one chunk equal to the whole input. -/
theorem splitter_small_input (t : List Char) :
    (t = [] → splitDefault t = []) ∧
      (t ≠ [] → t.length ≤ 1000 → splitDefault t = [t]) := by
  constructor
  · intro h
    subst h
    rfl
  · intro hne hlen
    match t with
    | x :: xs =>
      rw [splitDefault, defaultSeparators, splitTextAux, if_pos hlen]

/-- Witness for `splitter_small_input` at the two-character input `"ab"`
(and, for the empty clause, at `[]`). -/
theorem splitter_small_input_witness :
    splitDefault [] = [] ∧ splitDefault ("ab".toList) = ["ab".toList] :=
  ⟨(splitter_small_input []).1 rfl,
    (splitter_small_input ("ab".toList)).2 (by decide) (by decide)⟩

/-- Claim C6: for every input, the chunks produced by the configured
splitter cover the input with no gaps in document order — dropping from
each chunk after the first a prefix (the content duplicated by the
overlap) and concatenating yields the input exactly, so every character
of the input appears in some chunk — and every chunk's length is at most
`chunkSize`.  (The claim's proviso for an indivisible unit at the
character-split boundary never triggers: the configured separator list
ends with the empty separator, whose pieces are single characters, so the
bound holds unconditionally — a stronger statement than the claim.) -/
theorem splitter_covers_and_bounded (t : List Char) :
    covers (splitDefault t) t ∧ ∀ c ∈ splitDefault t, c.length ≤ 1000 := by
  constructor
  · rw [splitDefault, covers]
    rcases splitTextAux_covers 1000 200 defaultSeparators t with ⟨ht, hchunks⟩ | ⟨os, _, hs⟩
    · subst ht
      rw [hchunks]
      exact ⟨[], rfl⟩
    · exact ⟨os, hs⟩
  · intro c hc
    exact splitTextAux_length_le 1000 200 (by omega) defaultSeparators
      (by simp [defaultSeparators]) t c hc

/-! ## Chunk identity (`Docs2Vector.js` lines 58-60, `#generateId`)

`crypto.createHash('md5').update(content).digest('hex')`

Modelled from the spec: node's `crypto` md5 implementation is not under
`src/`; the spec (§4.1) requires "a pure function producing a fixed-length
deterministic digest of the exact input bytes" with "no side effects, no
failure modes".  The model is the MD5 algorithm itself (padding,
little-endian word schedule, 64 rounds per 512-bit block, lowercase hex
output), written over `Nat` with explicit reduction mod `2^32`; `update`
receives the JS string's UTF-8 bytes. -/

/-- UTF-8 encoding of one code point. -/
def utf8Bytes (c : Char) : List Nat :=
  let n := c.toNat
  if n < 128 then [n]
  else if n < 2048 then [192 + n / 64, 128 + n % 64]
  else if n < 65536 then [224 + n / 4096, 128 + (n / 64) % 64, 128 + n % 64]
  else [240 + n / 262144, 128 + (n / 4096) % 64, 128 + (n / 64) % 64, 128 + n % 64]

/-- The exact input bytes of the hash: the text's UTF-8 encoding. -/
def encodeUtf8 (s : List Char) : List Nat := s.flatMap utf8Bytes

/-- Reduction to a 32-bit word. -/
def w32 (n : Nat) : Nat := n % 4294967296

/-- 32-bit modular addition. -/
def wAdd (a b : Nat) : Nat := w32 (a + b)

/-- 32-bit complement. -/
def wNot (a : Nat) : Nat := 4294967295 - w32 a

/-- 32-bit left rotation. -/
def rotl (x s : Nat) : Nat := w32 (x <<< s) ||| (w32 x >>> (32 - s))

/-- The MD5 sine table `K` (RFC 1321): `K[i] = floor(|sin(i+1)| * 2^32)`. -/
def mdK : List Nat :=
  [3614090360, 3905402710, 606105819, 3250441966, 4118548399, 1200080426,
   2821735955, 4249261313, 1770035416, 2336552879, 4294925233, 2304563134,
   1804603682, 4254626195, 2792965006, 1236535329, 4129170786, 3225465664,
   643717713, 3921069994, 3593408605, 38016083, 3634488961, 3889429448,
   568446438, 3275163606, 4107603335, 1163531501, 2850285829, 4243563512,
   1735328473, 2368359562, 4294588738, 2272392833, 1839030562, 4259657740,
   2763975236, 1272893353, 4139469664, 3200236656, 681279174, 3936430074,
   3572445317, 76029189, 3654602809, 3873151461, 530742520, 3299628645,
   4096336452, 1126891415, 2878612391, 4237533241, 1700485571, 2399980690,
   4293915773, 2240044497, 1873313359, 4264355552, 2734768916, 1309151649,
   4149444226, 3174756917, 718787259, 3951481745]

/-- The MD5 per-round left-rotation amounts. -/
def mdS : List Nat :=
  [7, 12, 17, 22, 7, 12, 17, 22, 7, 12, 17, 22, 7, 12, 17, 22,
   5, 9, 14, 20, 5, 9, 14, 20, 5, 9, 14, 20, 5, 9, 14, 20,
   4, 11, 16, 23, 4, 11, 16, 23, 4, 11, 16, 23, 4, 11, 16, 23,
   6, 10, 15, 21, 6, 10, 15, 21, 6, 10, 15, 21, 6, 10, 15, 21]

/-- The four 32-bit registers of the MD5 state. -/
structure MD5State where
  a : Nat
  b : Nat
  c : Nat
  d : Nat

/-- One of the 64 MD5 rounds; `M j` is the `j`-th little-endian word of
the current block. -/
def md5Round (M : Nat → Nat) (st : MD5State) (i : Nat) : MD5State :=
  let f :=
    if i < 16 then (st.b &&& st.c) ||| (wNot st.b &&& st.d)
    else if i < 32 then (st.d &&& st.b) ||| (wNot st.d &&& st.c)
    else if i < 48 then st.b ^^^ st.c ^^^ st.d
    else st.c ^^^ (st.b ||| wNot st.d)
  let g :=
    if i < 16 then i
    else if i < 32 then (5 * i + 1) % 16
    else if i < 48 then (3 * i + 5) % 16
    else (7 * i) % 16
  let tmp := wAdd (wAdd (wAdd f st.a) (mdK.getD i 0)) (M g)
  ⟨st.d, wAdd st.b (rotl tmp (mdS.getD i 0)), st.b, st.c⟩

/-- `count` little-endian bytes of `n`. -/
def leBytes (n count : Nat) : List Nat :=
  (List.range count).map (fun i => (n >>> (8 * i)) % 256)

/-- The `j`-th little-endian 32-bit word of a 64-byte block. -/
def blockWord (block : List Nat) (j : Nat) : Nat :=
  ((block.drop (4 * j)).take 4).foldr (fun b acc => b + 256 * acc) 0

/-- Compress one 64-byte block into the state. -/
def md5Block (st : MD5State) (block : List Nat) : MD5State :=
  let r := (List.range 64).foldl (md5Round (blockWord block)) st
  ⟨wAdd st.a r.a, wAdd st.b r.b, wAdd st.c r.c, wAdd st.d r.d⟩

/-- MD5 padding: a `0x80` byte, zeros to 56 mod 64, then the original
length in bits as eight little-endian bytes. -/
def md5Pad (msg : List Nat) : List Nat :=
  let zeros := (120 - (msg.length + 1) % 64) % 64
  msg ++ [128] ++ List.replicate zeros 0 ++ leBytes ((8 * msg.length) % 2 ^ 64) 8

/-- The MD5 initial state. -/
def md5Init : MD5State := ⟨1732584193, 4023233417, 2562383102, 271733878⟩

/-- The 16-byte MD5 digest of a byte string. -/
def md5Digest (msg : List Nat) : List Nat :=
  let final := (batches 64 (md5Pad msg)).foldl md5Block md5Init
  leBytes final.a 4 ++ leBytes final.b 4 ++ leBytes final.c 4 ++ leBytes final.d 4

/-- The lowercase hex digit of `n mod 16`: `0`-`9` then `a`-`f`. -/
def hexDigit (n : Nat) : Char :=
  if n % 16 < 10 then Char.ofNat (48 + n % 16) else Char.ofNat (87 + n % 16)

/-- The sixteen lowercase hex digits. -/
def hexChars : List Char := (List.range 16).map hexDigit

/-- Two lowercase hex characters of one byte. -/
def byteToHex (b : Nat) : List Char := [hexDigit (b / 16), hexDigit (b % 16)]

/-- Lines 58-60: the chunk id is the lowercase-hex MD5 digest of the
chunk text's bytes. -/
def generateId (content : List Char) : List Char :=
  (md5Digest (encodeUtf8 content)).flatMap byteToHex

/-! ### Lemmas about the digest's shape -/

theorem leBytes_length (n count : Nat) : (leBytes n count).length = count := by
  rw [leBytes, List.length_map, List.length_range]

theorem md5Digest_length (msg : List Nat) : (md5Digest msg).length = 16 := by
  rw [md5Digest]
  simp [leBytes_length]

theorem flatMap_byteToHex_length :
    ∀ l : List Nat, (l.flatMap byteToHex).length = 2 * l.length := by
  intro l
  induction l with
  | nil => rfl
  | cons b rest ih =>
    rw [List.flatMap_cons, List.length_append, ih, List.length_cons]
    rw [byteToHex]
    simp only [List.length_cons, List.length_nil]
    omega

theorem hexDigit_eq_mod (n : Nat) : hexDigit n = hexDigit (n % 16) := by
  have h : n % 16 % 16 = n % 16 := Nat.mod_mod_of_dvd n (dvd_refl 16)
  rw [hexDigit, hexDigit, h]

theorem hexDigit_mem (n : Nat) : hexDigit n ∈ hexChars := by
  rw [hexDigit_eq_mod, hexChars, List.mem_map]
  exact ⟨n % 16, List.mem_range.mpr (Nat.mod_lt n (by omega)), rfl⟩

/-- Claim C7: the chunk-identity function is a total pure function of the
input text: it is deterministic (byte-identical inputs give identical
ids), and its output always has exactly 32 characters, each a lowercase
hex digit — the hex form of a 16-byte MD5 digest.  (The claim's final
clause, that ids of DIFFERENT texts differ "with overwhelming
probability", is a probabilistic statement about MD5 collisions and is
not formalised.) -/
theorem generateId_pure_fixed_length (s : List Char) :
    (generateId s).length = 32 ∧
      (∀ c ∈ generateId s, c ∈ hexChars) ∧
      (∀ s2, s = s2 → generateId s = generateId s2) := by
  refine ⟨?_, ?_, ?_⟩
  · rw [generateId, flatMap_byteToHex_length, md5Digest_length]
  · intro c hc
    rw [generateId, List.mem_flatMap] at hc
    obtain ⟨b, _, hcb⟩ := hc
    rw [byteToHex] at hcb
    rcases List.mem_cons.mp hcb with h | h
    · rw [h]
      exact hexDigit_mem _
    · rw [List.mem_singleton.mp h]
      exact hexDigit_mem _
  · intro s2 h
    rw [h]

/-! ## The document processor (`Docs2Vector.js` lines 96-126, `#processFile`)

`#processFile` reads the file (the content is an input here — file I/O is
an external collaborator), splits it with the configured splitter, and
maps every chunk to a record: `id` (the chunk hash), metadata
(`fileName`, `filePath`, `fileType`, `timestamp`), the chunk text as
`data`, and — only when an embedding provider is configured — a `vector`.
The JS record's absent `vector` field is modelled as `none`; the nested
`metadata` object is flattened into the structure. -/

/-- JS `path.basename`: the final path segment. -/
def basename (p : List Char) : List Char :=
  (p.reverse.takeWhile (fun c => c ≠ '/')).reverse

/-- JS `path.extname`: the final `.`-suffix of the basename; empty when
the basename has no dot or only its leading character is a dot. -/
def extname (p : List Char) : List Char :=
  let b := basename p
  let tailRev := b.reverse.takeWhile (fun c => c ≠ '.')
  if tailRev.length + 2 ≤ b.length then '.' :: tailRev.reverse else []

/-- One chunk record as built on lines 105-121. -/
structure ChunkRecord (V : Type) where
  id : List Char
  fileName : List Char
  filePath : List Char
  fileType : List Char
  timestamp : Nat
  data : List Char
  vector : Option V
deriving DecidableEq

/-- Lines 96-126: one record per chunk of the split content.  `V` is the
embedding provider's vector type, `embeddings` the optional provider
(`this.embeddings`), `relPath` the `path.relative` result and `now` the
wall-clock timestamp — all inputs of the pure model. -/
def processFile (V : Type) (embeddings : Option (List Char → V))
    (filePath relPath content : List Char) (now : Nat) : List (ChunkRecord V) :=
  (splitDefault content).map fun chunk =>
    { id := generateId chunk
      fileName := basename filePath
      filePath := relPath
      fileType := (extname filePath).drop 1
      timestamp := now
      data := chunk
      vector := embeddings.map (fun e => e chunk) }

/-- Claim C8: every record produced by `#processFile` carries the chunk
text in `data`, and carries a `vector` exactly when an embedding provider
is configured for the run — so with no provider every record is
`data`-only, with a provider every record has both, and all records of a
run have the same one of the two shapes. -/
theorem processFile_record_shapes (V : Type) (embeddings : Option (List Char → V))
    (filePath relPath content : List Char) (now : Nat) :
    ∀ r ∈ processFile V embeddings filePath relPath content now,
      (r.vector.isSome ↔ embeddings.isSome) ∧ r.data ∈ splitDefault content := by
  intro r hr
  rw [processFile, List.mem_map] at hr
  obtain ⟨chunk, hchunk, hrec⟩ := hr
  rw [← hrec]
  exact ⟨by simp, hchunk⟩

/-- Witness for `processFile_record_shapes`: processing the two-character
document `"hi"` with no provider configured yields a record whose
`vector` is absent. -/
theorem processFile_record_shapes_witness :
    ∃ r ∈ processFile Unit none ("/r/f.md".toList) ("f.md".toList) ("hi".toList) 0,
      r.vector.isSome ↔ (none : Option (List Char → Unit)).isSome := by
  have hmem : (⟨generateId ("hi".toList), basename ("/r/f.md".toList), "f.md".toList,
      (extname ("/r/f.md".toList)).drop 1, 0, "hi".toList, none⟩ : ChunkRecord Unit) ∈
      processFile Unit none ("/r/f.md".toList) ("f.md".toList) ("hi".toList) 0 :=
    List.mem_cons_self _ _
  exact ⟨_, hmem,
    (processFile_record_shapes Unit none ("/r/f.md".toList) ("f.md".toList)
      ("hi".toList) 0 _ hmem).1⟩

/-! ## File discovery (`Docs2Vector.js` lines 77-93, `#findMarkdownFiles`)

```
for (const file of files) {
    const fullPath = path.join(dir, file.name);
    if (file.isDirectory() && !file.name.startsWith('.')) {
        ... recurse, concatenate ...
    } else if (file.name.match(/\.(md|mdx)$/)) {
        markdownFiles.push(fullPath);
    }
}
``` -/

/-- A directory tree: what `fs.readdir(dir, withFileTypes: true)` exposes
of each entry — its name, and its children when it is a directory. -/
inductive FsEntry where
  | file (name : List Char)
  | dir (name : List Char) (children : List FsEntry)

/-- JS `name.startsWith('.')`. -/
def startsWithDot : List Char → Bool
  | '.' :: _ => true
  | _ => false

/-- The regex `/\.(md|mdx)$/`: the name ends in `.md` or `.mdx`. -/
def isMarkdownName (n : List Char) : Bool :=
  (['.', 'm', 'd'].isSuffixOf n) || (['.', 'm', 'd', 'x'].isSuffixOf n)

/-- JS `path.join(dir, name)` for entry names (which contain no `/`). -/
def joinPath (dir n : List Char) : List Char := dir ++ '/' :: n

/-- Lines 77-93: recurse into a directory exactly when its name has no
leading dot; otherwise (a non-directory, or a dot-named directory) push
the entry's path when its NAME matches the markdown regex.  The JS
recursion is unbounded; any `fuel` at least the tree's depth gives the
JS behaviour, and the characterisation theorem quantifies over `fuel`. -/
def findMarkdownFiles : Nat → List Char → List FsEntry → List (List Char)
  | 0, _, _ => []
  | fuel + 1, dirPath, entries =>
    entries.flatMap fun e =>
      match e with
      | .file n => if isMarkdownName n then [joinPath dirPath n] else []
      | .dir n children =>
        if startsWithDot n = false then
          findMarkdownFiles fuel (joinPath dirPath n) children
        else if isMarkdownName n then [joinPath dirPath n] else []

/-- The paths line 77-93 can discover, characterised structurally: an
entry of the current directory whose name matches the markdown regex and
which the loop does not recurse into (a file, or a directory with a
leading dot), or a path discovered inside a subdirectory whose name has
NO leading dot.  There is deliberately no rule entering a dot-named
directory: nothing under one is ever discovered. -/
inductive Discovered : List Char → List FsEntry → List Char → Prop where
  /-- a file entry whose name matches the regex. -/
  | fileHit (dirPath : List Char) (entries : List FsEntry) (n : List Char)
      (hmem : FsEntry.file n ∈ entries) (hmd : isMarkdownName n = true) :
      Discovered dirPath entries (joinPath dirPath n)
  /-- a dot-named DIRECTORY whose name matches the regex: the fallback
  branch tests only the name (claim C10). -/
  | dotDirHit (dirPath : List Char) (entries : List FsEntry) (n : List Char)
      (children : List FsEntry) (hmem : FsEntry.dir n children ∈ entries)
      (hdot : startsWithDot n = true) (hmd : isMarkdownName n = true) :
      Discovered dirPath entries (joinPath dirPath n)
  /-- recursion into a subdirectory without a leading dot. -/
  | inSubdir (dirPath : List Char) (entries : List FsEntry) (n : List Char)
      (children : List FsEntry) (p : List Char)
      (hmem : FsEntry.dir n children ∈ entries) (hdot : startsWithDot n = false)
      (hrec : Discovered (joinPath dirPath n) children p) :
      Discovered dirPath entries p

/-- Claim C9: file discovery returns exactly the paths reachable by
recursing through subdirectories without a leading dot, ending at a
regex-matching entry that is a file or a dot-named directory.  In
particular it recurses into every non-dot subdirectory, never recurses
into a dot-named one, and hence no path located under a dot-named
directory (such as `.git`) ever appears in the returned list. -/
theorem find_markdown_characterisation (dirPath : List Char)
    (entries : List FsEntry) (p : List Char) :
    (∃ fuel, p ∈ findMarkdownFiles fuel dirPath entries) ↔
      Discovered dirPath entries p := by
  constructor
  · rintro ⟨fuel, hmem⟩
    induction fuel generalizing dirPath entries p with
    | zero => exact absurd hmem (by simp [findMarkdownFiles])
    | succ fuel ih =>
      rw [findMarkdownFiles, List.mem_flatMap] at hmem
      obtain ⟨e, he, hp⟩ := hmem
      match e with
      | .file n =>
        dsimp only at hp
        by_cases hmd : isMarkdownName n = true
        · rw [if_pos hmd, List.mem_singleton] at hp
          rw [hp]
          exact Discovered.fileHit dirPath entries n he hmd
        · rw [if_neg hmd] at hp
          exact absurd hp (by simp)
      | .dir n children =>
        dsimp only at hp
        by_cases hdot : startsWithDot n = false
        · rw [if_pos hdot] at hp
          exact Discovered.inSubdir dirPath entries n children p he hdot (ih _ _ _ hp)
        · rw [if_neg hdot] at hp
          by_cases hmd : isMarkdownName n = true
          · rw [if_pos hmd, List.mem_singleton] at hp
            rw [hp]
            exact Discovered.dotDirHit dirPath entries n children he
              (by revert hdot; cases startsWithDot n <;> simp) hmd
          · rw [if_neg hmd] at hp
            exact absurd hp (by simp)
  · intro hdisc
    induction hdisc with
    | fileHit dirPath entries n hmem hmd =>
      refine ⟨1, ?_⟩
      rw [findMarkdownFiles, List.mem_flatMap]
      exact ⟨FsEntry.file n, hmem, by
        dsimp only
        rw [if_pos hmd]
        exact List.mem_singleton.mpr rfl⟩
    | dotDirHit dirPath entries n children hmem hdot hmd =>
      refine ⟨1, ?_⟩
      rw [findMarkdownFiles, List.mem_flatMap]
      refine ⟨FsEntry.dir n children, hmem, ?_⟩
      dsimp only
      rw [if_neg (by rw [hdot]; simp), if_pos hmd]
      exact List.mem_singleton.mpr rfl
    | inSubdir dirPath entries n children p hmem hdot _ ih =>
      obtain ⟨fuel, hf⟩ := ih
      refine ⟨fuel + 1, ?_⟩
      rw [findMarkdownFiles, List.mem_flatMap]
      exact ⟨FsEntry.dir n children, hmem, by
        dsimp only
        rw [if_pos hdot]
        exact hf⟩

/-- Claim C10: the fallback branch classifies entries by name alone — in
a tree whose root holds a dot-named SUBDIRECTORY `.notes.md` (name ending
in `.md`), discovery returns that directory's path as a "file", while the
regular file `secret.txt` inside it stays undiscovered. -/
theorem find_markdown_dir_fallback :
    findMarkdownFiles 2 ("repo".toList)
        [FsEntry.dir (".notes.md".toList) [FsEntry.file ("secret.txt".toList)]] =
      [("repo/.notes.md".toList)] := by
  decide

end Docs2Vector
